import Mathlib

/-!
Shallow embedding of `src/etc/ddex.py` (MusicTechLab DDEX map updater).

The Python script crawls a fixed set of DDEX documentation sites breadth-first
up to a depth bound, scores each successfully fetched page against each tag of
the input tag map, keeps the best page per tag, and finally reconciles the
existing tag map: placeholder entries are replaced by crawl candidates and any
final URL failing a liveness probe is cleared to the empty string.

Network effects are modelled as oracles:
  * a fetch oracle `String → Option (List String × String)` stands for
    `fetch` + `extract_links`: `none` models a failed fetch (`fetch` returned
    `None`), `some (rawLinks, text)` models a successful fetch where
    `rawLinks` are the `normalize_url` results for the page's anchors (before
    the `u and same_domain(u)` filter of `extract_links`, which the model
    applies itself) and `text` is the extracted text corpus;
  * HEAD/GET oracles `String → Except Unit Nat` stand for `requests.head`
    (with redirects followed) and `requests.get` in `check_url_alive`;
    `Except.error ()` models a raised transport exception, `Except.ok s` a
    response with status code `s`.

String primitives are implemented over `List Char` so that everything is
kernel-computable.  `Char.toLower`, `Char.isAlphanum` and `Char.isWhitespace`
model Python's `str.lower`, the regex word-character class `\w` and
`str.strip` for ASCII data (the data handled by the script is ASCII).
-/

namespace DDEX

/-! ### Constants of the script -/

def SEEDS : List String :=
  ["https://ern.ddex.net/", "https://service.ddex.net/dd/ERN38/", "https://ddex.net/standards/"]

def ALLOWED_DOMAINS : List String := ["ern.ddex.net", "service.ddex.net", "ddex.net"]

def MAX_PAGES : Nat := 1000

def MAX_DEPTH : Nat := 5

def DOMAIN_PRIORITY : List (String × Nat) :=
  [("ern.ddex.net", 3), ("service.ddex.net", 2), ("ddex.net", 1)]

/-! ### String primitives (models of the Python string/regex operations) -/

/-- Lower-casing a character sequence: models `str.lower` on ASCII data. -/
def lowerL (l : List Char) : List Char := l.map Char.toLower

/-- Scan to the part of a URL following the first `://`; models the
scheme/netloc split of `urllib.parse.urlparse` for absolute http(s) URLs. -/
def afterScheme : List Char → Option (List Char)
  | [] => none
  | ':' :: '/' :: '/' :: rest => some rest
  | _ :: rest => afterScheme rest

/-- The host (netloc) part of an absolute URL: the characters after `://` and
before the first `/`, `?` or `#`; models `urllib.parse.urlparse(url).netloc`
for the absolute http(s) URLs the script works with. -/
def netlocL (url : List Char) : List Char :=
  match afterScheme url with
  | none => []
  | some rest => rest.takeWhile (fun c => c != '/' && c != '?' && c != '#')

/-- Python `same_domain`: the lower-cased netloc ends with one of the allowed
domain suffixes (`str.endswith`, no label-boundary requirement). -/
def same_domain (url : String) : Bool :=
  ALLOWED_DOMAINS.any (fun d => d.data.isSuffixOf (lowerL (netlocL url.data)))

/-- Substring occurrence test on character lists; models Python's `in` for
strings (the empty pattern occurs in every string). -/
def substrIn (pat : List Char) : List Char → Bool
  | [] => pat.isEmpty
  | c :: cs => pat.isPrefixOf (c :: cs) || substrIn pat cs

/-- Word characters of the regex `\b` boundary (`\w`), ASCII model. -/
def isWordChar (c : Char) : Bool := c.isAlphanum || c == '_'

/-- A regex word boundary `\b` sits between two positions iff exactly one of
them holds a word character; positions outside the string count as non-word. -/
def boundaryB (a b : Option Char) : Bool :=
  ((a.map isWordChar).getD false) != ((b.map isWordChar).getD false)

/-- Does the (nonempty) tag match at the head of `rest`, with `\b` boundaries
on both sides?  `prev` is the character just before `rest`, if any.  Models a
match of the pattern `\b<re.escape(tag)>\b` at this position.  An empty tag is
treated as never matching (the script's tags are nonempty words). -/
def wordMatchAt (prev : Option Char) (tag rest : List Char) : Bool :=
  match tag with
  | [] => false
  | t0 :: _ =>
    tag.isPrefixOf rest && boundaryB prev (some t0) &&
      boundaryB tag.getLast? ((rest.drop tag.length).head?)

/-- Left-to-right non-overlapping scan counting matches of `\btag\b`:
`skip` positions are still covered by the previous match and are not match
candidates.  Models `len(re.findall(fr"\b{re.escape(tag)}\b", text))`. -/
def countOccGo (tag : List Char) : Option Char → Nat → List Char → Nat
  | _, _, [] => 0
  | _, skip + 1, c :: cs => countOccGo tag (some c) skip cs
  | prev, 0, c :: cs =>
    if wordMatchAt prev tag (c :: cs) then
      1 + countOccGo tag (some c) (tag.length - 1) cs
    else
      countOccGo tag (some c) 0 cs

/-- Number of non-overlapping whole-word occurrences of `tag` in `text`. -/
def countOcc (tag text : String) : Nat := countOccGo tag.data none 0 text.data

/-- Python `re.search(fr"\b{re.escape(t)}\b", text)` succeeds. -/
def hasWordOcc (tag text : String) : Bool := countOcc tag text != 0

/-- Strip leading and trailing whitespace; models `str.strip()` on ASCII. -/
def trimL (l : List Char) : List Char :=
  ((l.dropWhile Char.isWhitespace).reverse.dropWhile Char.isWhitespace).reverse

/-! ### Relevance scorer (`score`) -/

/-- Python `score(url, text, tag)`: domain priority of the host times 100,
plus 20 for a case-insensitive substring hit of the tag in the URL, plus 10
per whole-word occurrence of the tag in the text, capped at 5 occurrences. -/
def score (url text tag : String) : Nat :=
  let d : String := ⟨lowerL (netlocL url.data)⟩
  let s := (List.lookup d DOMAIN_PRIORITY).getD 0 * 100
  let s := if substrIn (lowerL tag.data) (lowerL url.data) then s + 20 else s
  s + min (countOcc tag text) 5 * 10

/-- The host's priority weight, 0 for hosts outside the fixed table
(spec wording for step 1 of the scorer). -/
def priorityWeight (url : String) : Nat :=
  (List.lookup (⟨lowerL (netlocL url.data)⟩ : String) DOMAIN_PRIORITY).getD 0

/-- The tag occurs case-insensitively anywhere in the URL
(spec wording for step 2 of the scorer). -/
def tagInUrl (url tag : String) : Bool := substrIn (lowerL tag.data) (lowerL url.data)

/-! ### Liveness checker (`check_url_alive`) -/

/-- Python `check_url_alive(url)` over HEAD/GET oracles.  Empty input or input
not starting with `http` is rejected before any network call; a HEAD status of
200/301/302 is alive; a HEAD status of 405 falls back to GET and only 200 is
alive; every other status and every transport exception is not alive. -/
def check_url_alive (headReq getReq : String → Except Unit Nat) (url : String) : Bool :=
  if url = "" || !("http".data.isPrefixOf url.data) then false
  else
    match headReq url with
    | Except.error _ => false
    | Except.ok st =>
      if st == 200 || st == 301 || st == 302 then true
      else if st == 405 then
        match getReq url with
        | Except.error _ => false
        | Except.ok st2 => st2 == 200
      else false

/-! ### Map reconciler (the per-tag body of `main`) -/

/-- The stripped existing value of a tag: `v.strip() if isinstance(v, str)
else ""`.  `none` models a non-string JSON value. -/
def strippedValue : Option String → String
  | some s => ⟨trimL s.data⟩
  | none => ""

/-- The per-tag update of `main`: `candidate` is `scraped.get(k)` (the crawl's
best URL for the tag, if any), `alive` is the liveness check.  A placeholder
value is replaced by a truthy candidate; then any nonempty final URL failing
the liveness check is cleared to the empty string. -/
def reconcileValue (alive : String → Bool) (candidate : Option String)
    (v : Option String) : String :=
  let old := strippedValue v
  let final :=
    match candidate with
    | some c => if "https://ddex.net/docs/".data.isPrefixOf old.data && c != "" then c else old
    | none => old
  if final != "" && !(alive final) then "" else final

/-! ### Crawler state (`crawl`)

In addition to the four state components of the Python loop (`visited`,
`queue`, `pages`, `best_for_tag`), the model carries three ghost logs that
record the observable history of the run: `dequeued` logs every item popped
from the frontier, `fetched` logs every URL actually fetched (this is exactly
what the script's per-page `print` reports), and `processed` logs every
successfully fetched and parsed page together with its extracted text. -/

structure CrawlState where
  visited : List String
  queue : List (String × Nat)
  pages : Nat
  best : List (String × (Nat × String))
  dequeued : List (String × Nat)
  fetched : List (String × Nat)
  processed : List (String × String)
deriving Repr, DecidableEq

/-- Python dict assignment `m[k] = v`: replace the value at an existing key in
place, otherwise append the new binding. -/
def dictSet (m : List (String × (Nat × String))) (k : String) (v : Nat × String) :
    List (String × (Nat × String)) :=
  match m with
  | [] => [(k, v)]
  | (k0, v0) :: rest => if k0 = k then (k, v) :: rest else (k0, v0) :: dictSet rest k v

/-- One iteration of the scoring loop body for one tag `t`:
`if re.search(...): sc = score(...); if t not in best or sc > best[t][0]:
best[t] = (sc, url)`. -/
def scoreStep (url text : String) (b : List (String × (Nat × String))) (t : String) :
    List (String × (Nat × String)) :=
  if hasWordOcc t text then
    let sc := score url text t
    match List.lookup t b with
    | none => dictSet b t (sc, url)
    | some (bs, _) => if sc > bs then dictSet b t (sc, url) else b
  else b

/-- The whole `for t in tags` scoring loop over one page. -/
def scorePage (tags : List String) (url text : String)
    (b : List (String × (Nat × String))) : List (String × (Nat × String)) :=
  tags.foldl (scoreStep url text) b

/-- Transition for a dequeued item that is skipped (already visited or not on
an allowed domain): drop it from the frontier. -/
def stepSkip (st : CrawlState) (url : String) (depth : Nat) (rest : List (String × Nat)) :
    CrawlState :=
  { st with queue := rest, dequeued := st.dequeued ++ [(url, depth)] }

/-- Transition for a dequeued item whose fetch fails (`fetch` returned
`None`): mark visited, nothing else changes. -/
def stepFail (st : CrawlState) (url : String) (depth : Nat) (rest : List (String × Nat)) :
    CrawlState :=
  { stepSkip st url depth rest with
      visited := url :: st.visited, fetched := st.fetched ++ [(url, depth)] }

/-- The frontier items enqueued from a page at `depth`: its raw links
filtered as `extract_links` does (`if u and same_domain(u)`), minus the
already-visited ones (with the page's own URL freshly visited), each at
`depth + 1` — but only when the page's depth is strictly below `MAX_DEPTH`. -/
def newLinks (st : CrawlState) (url : String) (depth : Nat) (rawLinks : List String) :
    List (String × Nat) :=
  let visited1 := url :: st.visited
  let links := rawLinks.filter (fun u => u != "" && same_domain u)
  if depth < MAX_DEPTH then
    (links.filter (fun u => !(visited1.contains u))).map (fun u => (u, depth + 1))
  else []

/-- Transition for a successfully fetched and parsed page: filter the raw
links as `extract_links` does, count the page, score it against every tag, and
when the depth bound allows it enqueue the not-yet-visited links at
`depth + 1`. -/
def stepOk (tags : List String) (st : CrawlState) (url : String) (depth : Nat)
    (rest : List (String × Nat)) (rawLinks : List String) (text : String) : CrawlState :=
  { visited := url :: st.visited
    queue := rest ++ newLinks st url depth rawLinks
    pages := st.pages + 1
    best := scorePage tags url text st.best
    dequeued := st.dequeued ++ [(url, depth)]
    fetched := st.fetched ++ [(url, depth)]
    processed := st.processed ++ [(url, text)] }

/-- The crawl loop `while queue and pages < MAX_PAGES`.  Termination: a
skipped or failed item shortens the frontier without touching the page
counter, and a successful page strictly increases the page counter, which is
capped by `MAX_PAGES`. -/
def crawlLoop (oracle : String → Option (List String × String)) (tags : List String)
    (st : CrawlState) : CrawlState :=
  match hq : st.queue with
  | [] => st
  | (url, depth) :: rest =>
    if hp : st.pages < MAX_PAGES then
      if url ∈ st.visited ∨ ¬ same_domain url then
        crawlLoop oracle tags (stepSkip st url depth rest)
      else
        match oracle url with
        | none => crawlLoop oracle tags (stepFail st url depth rest)
        | some (rawLinks, text) =>
          crawlLoop oracle tags (stepOk tags st url depth rest rawLinks text)
    else st
termination_by (MAX_PAGES - st.pages, st.queue.length)
decreasing_by
  all_goals simp [stepSkip, stepFail, stepOk, hq]
  all_goals first
    | exact Prod.Lex.right _ (by omega)
    | exact Prod.Lex.left _ _ (by omega)

/-- The initial crawl state: the deduplicated seed list at depth 0
(`deque((seed, 0) for seed in dict.fromkeys(SEEDS))`). -/
def initState : CrawlState :=
  { visited := []
    queue := SEEDS.eraseDups.map (fun s => (s, 0))
    pages := 0
    best := []
    dequeued := []
    fetched := []
    processed := [] }

/-- Python `crawl(tags)`, returning the whole final state. -/
def crawl (oracle : String → Option (List String × String)) (tags : List String) :
    CrawlState :=
  crawlLoop oracle tags initState

/-- The value `crawl` actually returns:
`{t: u for t, (_, u) in best_for_tag.items()}`, read as a lookup table. -/
def crawlResult (oracle : String → Option (List String × String)) (tags : List String) :
    String → Option String :=
  fun t => (List.lookup t (crawl oracle tags).best).map (fun p => p.2)

/-- Replaying only the scoring part of the crawl over a list of processed
pages (url, text); the crawl's best-score table is exactly this fold over its
`processed` log. -/
def runBest (tags : List String) (ps : List (String × String)) :
    List (String × (Nat × String)) :=
  ps.foldl (fun b p => scorePage tags p.1 p.2 b) []

/-- The processed pages relevant to a tag: those whose extracted text contains
the tag as a whole word. -/
def tagPages (t : String) (ps : List (String × String)) : List (String × String) :=
  ps.filter (fun p => hasWordOcc t p.2)

/-! ### A concrete run used to witness the crawl theorems -/

/-- A concrete fetch oracle: only the first seed succeeds, with no links and
the extracted text `ERN`; every other fetch fails. -/
def o0 : String → Option (List String × String) := fun url =>
  if url = "https://ern.ddex.net/" then some ([], "ERN") else none

/-- State after the first iteration of the `o0` run (first seed fetched,
scored 330 for the tag `ERN`). -/
def stA : CrawlState :=
  { visited := ["https://ern.ddex.net/"]
    queue := [("https://service.ddex.net/dd/ERN38/", 0), ("https://ddex.net/standards/", 0)]
    pages := 1
    best := [("ERN", (330, "https://ern.ddex.net/"))]
    dequeued := [("https://ern.ddex.net/", 0)]
    fetched := [("https://ern.ddex.net/", 0)]
    processed := [("https://ern.ddex.net/", "ERN")] }

/-- State after the second iteration (second seed fetch failed). -/
def stB : CrawlState :=
  { stA with
    visited := ["https://service.ddex.net/dd/ERN38/", "https://ern.ddex.net/"]
    queue := [("https://ddex.net/standards/", 0)]
    dequeued := [("https://ern.ddex.net/", 0), ("https://service.ddex.net/dd/ERN38/", 0)]
    fetched := [("https://ern.ddex.net/", 0), ("https://service.ddex.net/dd/ERN38/", 0)] }

/-- Final state of the `o0` run. -/
def finalO0 : CrawlState :=
  { stB with
    visited := ["https://ddex.net/standards/", "https://service.ddex.net/dd/ERN38/",
      "https://ern.ddex.net/"]
    queue := []
    dequeued := [("https://ern.ddex.net/", 0), ("https://service.ddex.net/dd/ERN38/", 0),
      ("https://ddex.net/standards/", 0)]
    fetched := [("https://ern.ddex.net/", 0), ("https://service.ddex.net/dd/ERN38/", 0),
      ("https://ddex.net/standards/", 0)] }

/-- Stepwise evaluation of the `o0` run: the loop runs three iterations (one
successful page, two failed fetches) and stops on the empty frontier. -/
lemma crawl_o0_eval : crawl o0 ["ERN"] = finalO0 := by
  rw [crawl]
  rw [crawlLoop.eq_def]
  change crawlLoop o0 ["ERN"] stA = finalO0
  rw [crawlLoop.eq_def]
  change crawlLoop o0 ["ERN"] stB = finalO0
  rw [crawlLoop.eq_def]
  change crawlLoop o0 ["ERN"] finalO0 = finalO0
  rw [crawlLoop.eq_def]
  rfl

/-! ### C4: the relevance scorer -/

/-- C4: `score url text tag` is the host's priority weight (0 for unknown
hosts) times 100, plus 20 when the tag occurs case-insensitively in the URL,
plus 10 per whole-word case-sensitive occurrence of the tag in the text,
capped at 5 occurrences. -/
theorem score_formula (url text tag : String) :
    score url text tag =
      priorityWeight url * 100 + (if tagInUrl url tag then 20 else 0) +
        10 * min (countOcc tag text) 5 := by
  simp only [score, priorityWeight, tagInUrl]
  by_cases h : substrIn (lowerL tag.data) (lowerL url.data) <;> simp [h] <;> omega

/-! ### C9: the domain allow-list has no label boundary -/

/-- C9: the URL `https://evilddex.net/x` has host `evilddex.net`, which is
neither an allowed documentation host nor a subdomain of one (it does not end
in `.` followed by an allowed host), yet `same_domain` accepts it, because the
check is a bare `endswith` on the host string. -/
theorem same_domain_no_label_boundary :
    same_domain "https://evilddex.net/x" = true ∧
      (netlocL "https://evilddex.net/x".data).asString ∉ ALLOWED_DOMAINS ∧
      ∀ d ∈ ALLOWED_DOMAINS,
        ("." ++ d).data.isSuffixOf (lowerL (netlocL "https://evilddex.net/x".data)) = false := by
  decide

/-! ### C7: the liveness checker -/

/-- C7: `check_url_alive` reports alive exactly when the input starts with
`http` and either the HEAD request returns status 200, 301 or 302, or it
returns 405 and the fallback GET returns exactly 200; for empty input or
input without the scheme prefix the result is false independently of the
network oracles (no network call is observable), and a transport exception or
any other status yields false. -/
theorem check_url_alive_spec (headReq getReq : String → Except Unit Nat) (url : String) :
    (check_url_alive headReq getReq url = true ↔
      "http".data.isPrefixOf url.data = true ∧
        ((∃ s, headReq url = Except.ok s ∧ (s = 200 ∨ s = 301 ∨ s = 302)) ∨
          (headReq url = Except.ok 405 ∧ getReq url = Except.ok 200))) ∧
    ((url = "" ∨ "http".data.isPrefixOf url.data = false) →
      ∀ headReq2 getReq2 : String → Except Unit Nat,
        check_url_alive headReq2 getReq2 url = false) := by
  have hguard : ∀ u : String, u = "" ∨ "http".data.isPrefixOf u.data = false →
      (u = "" || !("http".data.isPrefixOf u.data)) = true := by
    intro u hu
    rcases hu with hu | hu <;> simp [hu]
  constructor
  · by_cases hpre : "http".data.isPrefixOf url.data
    · have hne : ¬ url = "" := by
        intro he
        rw [he] at hpre
        exact absurd hpre (by decide)
      unfold check_url_alive
      rw [if_neg (by simp [hpre, hne])]
      cases hh : headReq url with
      | error e => simp [hh, hpre]
      | ok st =>
        dsimp only
        by_cases h2 : st = 200 ∨ st = 301 ∨ st = 302
        · have hc : (st == 200 || st == 301 || st == 302) = true := by
            rcases h2 with h | h | h <;> simp [h]
          rw [if_pos hc]
          simp only [true_iff]
          exact ⟨hpre, Or.inl ⟨st, rfl, h2⟩⟩
        · have hc : (st == 200 || st == 301 || st == 302) = false := by
            simp only [Bool.or_eq_false_iff, beq_eq_false_iff_ne, ne_eq]
            omega
          rw [if_neg (by simp [hc])]
          by_cases h3 : st = 405
          · subst h3
            rw [if_pos (by simp)]
            cases hg : getReq url with
            | error e => simp [hh, hg, hpre, h2]
            | ok st2 => simp [hh, hg, hpre, h2, beq_iff_eq, @eq_comm Nat 200 st2]
          · rw [if_neg (by simp [h3])]
            constructor
            · intro hfalse
              simp at hfalse
            · rintro ⟨-, ⟨s, hs, hmem⟩ | ⟨hs, -⟩⟩
              · simp only [Except.ok.injEq] at hs
                subst hs
                exact absurd hmem h2
              · simp only [Except.ok.injEq] at hs
                exact absurd hs h3
    · unfold check_url_alive
      rw [if_pos (hguard url (Or.inr (Bool.eq_false_iff.mpr hpre)))]
      simp [hpre]
  · intro h headReq2 getReq2
    unfold check_url_alive
    rw [if_pos (hguard url h)]

/-- Witness for C7: a 405-then-200 exchange is alive, and a non-`http` input
is rejected without consulting the oracles. -/
theorem check_url_alive_spec_witness :
    check_url_alive (fun _ => Except.ok 405) (fun _ => Except.ok 200) "https://x" = true ∧
      check_url_alive (fun _ => Except.ok 200) (fun _ => Except.ok 200) "ftp://x" = false := by
  constructor
  · exact (check_url_alive_spec (fun _ => Except.ok 405) (fun _ => Except.ok 200)
      "https://x").1.mpr ⟨by decide, Or.inr ⟨rfl, rfl⟩⟩
  · exact (check_url_alive_spec (fun _ => Except.ok 200) (fun _ => Except.ok 200)
      "ftp://x").2 (Or.inr (by decide)) _ _

/-! ### C1 and C2: the map reconciler -/

/-- C1: a nonempty stripped input value that does not start with the
placeholder prefix is kept when alive and cleared to the empty string when
not; in particular it is never replaced by a crawl candidate. -/
theorem reconcile_nonplaceholder (alive : String → Bool) (candidate : Option String)
    (v : Option String) (h1 : strippedValue v ≠ "")
    (h2 : "https://ddex.net/docs/".data.isPrefixOf (strippedValue v).data = false) :
    reconcileValue alive candidate v =
      if alive (strippedValue v) then strippedValue v else "" := by
  unfold reconcileValue
  cases candidate with
  | none => cases ha : alive (strippedValue v) <;> simp [ha, h1]
  | some c =>
    simp only [h2, Bool.false_and, if_neg]
    cases ha : alive (strippedValue v) <;> simp [ha, h1]

/-- Witness for C1: an existing non-placeholder URL survives reconciliation
untouched (stripped) when the liveness check passes, even though a crawl
candidate exists. -/
theorem reconcile_nonplaceholder_witness :
    reconcileValue (fun _ => true) (some "https://ern.ddex.net/isrc")
        (some " https://example.com/working ") = "https://example.com/working" := by
  rw [reconcile_nonplaceholder (fun _ => true) (some "https://ern.ddex.net/isrc")
    (some " https://example.com/working ") (by decide) (by decide)]
  decide

/-- C2 as stated fails on the code: with no crawl candidate, a placeholder
input value is passed to the liveness check like any other nonempty value,
and is kept verbatim when the check reports it alive, so the output is not
the empty string. -/
theorem reconcile_placeholder_counterexample :
    reconcileValue (fun _ => true) none (some "https://ddex.net/docs/ern") =
        "https://ddex.net/docs/ern" ∧
      reconcileValue (fun _ => true) none (some "https://ddex.net/docs/ern") ≠ "" := by
  decide

/-- C2 amended: for a tag with no crawl candidate whose stripped input value
begins with the placeholder prefix, the reconciler runs the liveness check on
the placeholder URL itself and keeps it when alive, clearing it to the empty
string only when the check fails. -/
theorem reconcile_placeholder_no_candidate (alive : String → Bool) (v : Option String)
    (h : "https://ddex.net/docs/".data.isPrefixOf (strippedValue v).data = true) :
    reconcileValue alive none v =
      if alive (strippedValue v) then strippedValue v else "" := by
  have hne : strippedValue v ≠ "" := by
    intro he
    rw [he] at h
    exact absurd h (by decide)
  unfold reconcileValue
  cases ha : alive (strippedValue v) <;> simp [ha, hne]

/-- Witness for the amended C2: a dead placeholder with no candidate is
cleared to the empty string. -/
theorem reconcile_placeholder_no_candidate_witness :
    reconcileValue (fun _ => false) none (some "https://ddex.net/docs/ern") = "" := by
  rw [reconcile_placeholder_no_candidate (fun _ => false)
    (some "https://ddex.net/docs/ern") (by decide)]
  decide

/-! ### The best-score table: pointwise description of the scoring loop -/

/-- The effect of one page on the best-score entry of one matching tag:
create the entry if absent, replace it only on a strictly greater score. -/
def bestUpdate (url text t : String) (prev : Option (Nat × String)) : Option (Nat × String) :=
  match prev with
  | none => some (score url text t, url)
  | some (bs, bu) =>
    if score url text t > bs then some (score url text t, url) else some (bs, bu)

lemma lookup_dictSet_self (m : List (String × (Nat × String))) (k : String) (v : Nat × String) :
    List.lookup k (dictSet m k v) = some v := by
  induction m with
  | nil => simp [dictSet, List.lookup]
  | cons p rest ih =>
    obtain ⟨k0, v0⟩ := p
    by_cases h : k0 = k
    · subst h
      simp [dictSet, List.lookup]
    · have hbe : (k == k0) = false := beq_eq_false_iff_ne.mpr (Ne.symm h)
      simp [dictSet, h, List.lookup, hbe, ih]

lemma lookup_dictSet_ne (m : List (String × (Nat × String))) (k t : String) (v : Nat × String)
    (h : t ≠ k) : List.lookup t (dictSet m k v) = List.lookup t m := by
  have hbe : (t == k) = false := beq_eq_false_iff_ne.mpr h
  induction m with
  | nil => simp [dictSet, List.lookup, hbe]
  | cons p rest ih =>
    obtain ⟨k0, v0⟩ := p
    by_cases h0 : k0 = k
    · subst h0
      simp [dictSet, List.lookup, hbe]
    · by_cases ht : t = k0
      · subst ht
        simp [dictSet, h0, List.lookup]
      · have hbe0 : (t == k0) = false := beq_eq_false_iff_ne.mpr ht
        simp [dictSet, h0, List.lookup, hbe0, ih]

lemma lookup_scoreStep_self (url text : String) (b : List (String × (Nat × String)))
    (t : String) :
    List.lookup t (scoreStep url text b t) =
      if hasWordOcc t text then bestUpdate url text t (List.lookup t b)
      else List.lookup t b := by
  unfold scoreStep bestUpdate
  by_cases ho : hasWordOcc t text
  · simp only [ho, if_true]
    cases hb : List.lookup t b with
    | none => simp [lookup_dictSet_self]
    | some p =>
      obtain ⟨bs, bu⟩ := p
      by_cases hgt : score url text t > bs
      · simp [hgt, lookup_dictSet_self]
      · simp [hgt, hb]
  · simp [ho]

lemma lookup_scoreStep_ne (url text : String) (b : List (String × (Nat × String)))
    (t t0 : String) (h : t ≠ t0) :
    List.lookup t (scoreStep url text b t0) = List.lookup t b := by
  unfold scoreStep
  by_cases ho : hasWordOcc t0 text
  · simp only [ho, if_true]
    cases hb : List.lookup t0 b with
    | none => simp [lookup_dictSet_ne _ _ _ _ h]
    | some p =>
      obtain ⟨bs, bu⟩ := p
      by_cases hgt : score url text t0 > bs
      · simp [hgt, lookup_dictSet_ne _ _ _ _ h]
      · simp [hgt]
  · simp [ho]

/-- `bestUpdate` is idempotent: a second pass of the same page over the same
tag never changes the entry again (the strict comparison fails on equality). -/
lemma bestUpdate_idem (url text t : String) (p : Option (Nat × String)) :
    bestUpdate url text t (bestUpdate url text t p) = bestUpdate url text t p := by
  unfold bestUpdate
  cases p with
  | none => simp
  | some q =>
    obtain ⟨bs, bu⟩ := q
    by_cases hgt : score url text t > bs <;> simp [hgt]

/-- Pointwise description of the whole scoring loop over one page: a tag in
the caller's tag list with a whole-word occurrence in the page text gets its
entry `bestUpdate`d, every other tag keeps its entry. -/
lemma lookup_scorePage (tags : List String) (url text : String)
    (b : List (String × (Nat × String))) (t : String) :
    List.lookup t (scorePage tags url text b) =
      if t ∈ tags ∧ hasWordOcc t text = true then bestUpdate url text t (List.lookup t b)
      else List.lookup t b := by
  induction tags generalizing b with
  | nil => simp [scorePage]
  | cons t0 ts ih =>
    have hstep : scorePage (t0 :: ts) url text b = scorePage ts url text (scoreStep url text b t0) := by
      simp [scorePage]
    rw [hstep, ih]
    by_cases he : t = t0
    · subst he
      by_cases ho : hasWordOcc t text
      · by_cases hts : t ∈ ts
        · simp [hts, ho, lookup_scoreStep_self, bestUpdate_idem]
        · simp [hts, ho, lookup_scoreStep_self, List.mem_cons]
      · simp [ho, lookup_scoreStep_self]
    · rw [lookup_scoreStep_ne url text b t t0 he]
      by_cases hts : t ∈ ts <;> simp [List.mem_cons, he, hts]

lemma runBest_append (tags : List String) (ps : List (String × String)) (p : String × String) :
    runBest tags (ps ++ [p]) = scorePage tags p.1 p.2 (runBest tags ps) := by
  simp [runBest, List.foldl_append]

/-! ### The crawl loop invariant principle -/

/-- Every property preserved by the three loop transitions holds of the final
crawl state whenever it holds of the initial one. -/
theorem crawlLoop_inv (oracle : String → Option (List String × String)) (tags : List String)
    (P : CrawlState → Prop)
    (hskip : ∀ st url depth rest, st.queue = (url, depth) :: rest → st.pages < MAX_PAGES →
      (url ∈ st.visited ∨ ¬ same_domain url) → P st → P (stepSkip st url depth rest))
    (hfail : ∀ st url depth rest, st.queue = (url, depth) :: rest → st.pages < MAX_PAGES →
      ¬ (url ∈ st.visited ∨ ¬ same_domain url) → oracle url = none →
      P st → P (stepFail st url depth rest))
    (hok : ∀ st url depth rest rawLinks text, st.queue = (url, depth) :: rest →
      st.pages < MAX_PAGES → ¬ (url ∈ st.visited ∨ ¬ same_domain url) →
      oracle url = some (rawLinks, text) → P st → P (stepOk tags st url depth rest rawLinks text))
    (st : CrawlState) (h : P st) : P (crawlLoop oracle tags st) := by
  rw [crawlLoop.eq_def]
  split
  · exact h
  · rename_i url depth rest hq
    split
    · rename_i hp
      split
      · rename_i hcond
        exact crawlLoop_inv oracle tags P hskip hfail hok _
          (hskip st url depth rest hq hp hcond h)
      · rename_i hcond
        split
        · rename_i ho
          exact crawlLoop_inv oracle tags P hskip hfail hok _
            (hfail st url depth rest hq hp hcond ho h)
        · rename_i rawLinks text ho
          exact crawlLoop_inv oracle tags P hskip hfail hok _
            (hok st url depth rest rawLinks text hq hp hcond ho h)
    · exact h
termination_by (MAX_PAGES - st.pages, st.queue.length)
decreasing_by
  all_goals simp_all [stepSkip, stepFail, stepOk]
  all_goals first
    | exact Prod.Lex.right _ (by omega)
    | exact Prod.Lex.left _ _ (by omega)

/-- The crawl's final best-score table is exactly the scoring fold replayed
over its log of successfully processed pages, in processing order. -/
lemma crawl_best_eq_runBest (oracle : String → Option (List String × String))
    (tags : List String) :
    (crawl oracle tags).best = runBest tags (crawl oracle tags).processed := by
  exact crawlLoop_inv oracle tags (fun st => st.best = runBest tags st.processed)
    (by intro st url depth rest hq hp hc h; simpa [stepSkip] using h)
    (by intro st url depth rest hq hp hc ho h; simpa [stepFail, stepSkip] using h)
    (by
      intro st url depth rest rawLinks text hq hp hc ho h
      simp only [stepOk]
      rw [runBest_append]
      simp [h])
    initState (by simp [initState, runBest])

lemma runBest_none_of_not_mem (tags : List String) (ps : List (String × String))
    (t : String) (h : t ∉ tags) : List.lookup t (runBest tags ps) = none := by
  induction ps using List.reverseRecOn with
  | nil => simp [runBest, List.lookup]
  | append_singleton ps p ih =>
    rw [runBest_append, lookup_scorePage]
    simp [h, ih]

/-- Full characterisation of a best-score entry over a page list: the entry
is absent exactly when no processed page contains the tag; a present entry
`(s, u)` carries the maximum score `s` over all pages containing the tag, and
`u` is the URL of the first such page attaining `s` (ties keep the first). -/
lemma runBest_spec (tags : List String) (ps : List (String × String)) (t : String)
    (ht : t ∈ tags) :
    (List.lookup t (runBest tags ps) = none ↔ tagPages t ps = []) ∧
    (∀ s u, List.lookup t (runBest tags ps) = some (s, u) →
      (∀ p ∈ tagPages t ps, score p.1 p.2 t ≤ s) ∧
      ∃ tx, (tagPages t ps).find? (fun p => score p.1 p.2 t == s) = some (u, tx)) := by
  induction ps using List.reverseRecOn with
  | nil =>
    constructor
    · simp [runBest, tagPages, List.lookup]
    · intro s u h
      simp [runBest, List.lookup] at h
  | append_singleton ps p ih =>
    obtain ⟨pu, ptx⟩ := p
    obtain ⟨hn, hs⟩ := ih
    rw [runBest_append, lookup_scorePage]
    by_cases ho : hasWordOcc t ptx
    · rw [if_pos ⟨ht, ho⟩]
      have htp : tagPages t (ps ++ [(pu, ptx)]) = tagPages t ps ++ [(pu, ptx)] := by
        simp [tagPages, List.filter_append, ho]
      rw [htp]
      cases hb : List.lookup t (runBest tags ps) with
      | none =>
        have hemp : tagPages t ps = [] := hn.mp hb
        rw [hemp]
        constructor
        · simp [bestUpdate]
        · intro s u hsu
          simp only [bestUpdate, Option.some.injEq, Prod.mk.injEq] at hsu
          obtain ⟨hsv, huv⟩ := hsu
          subst hsv
          subst huv
          constructor
          · intro q hqmem
            simp only [List.nil_append, List.mem_singleton] at hqmem
            subst hqmem
            exact le_refl _
          · exact ⟨ptx, by simp [List.find?]⟩
      | some q =>
        obtain ⟨bs, bu⟩ := q
        obtain ⟨hmax, tx0, hfind⟩ := hs bs bu hb
        by_cases hgt : score pu ptx t > bs
        · rw [show bestUpdate pu ptx t (some (bs, bu)) =
              some (score pu ptx t, pu) from by simp [bestUpdate, hgt]]
          constructor
          · simp
          · intro s u hsu
            simp only [Option.some.injEq, Prod.mk.injEq] at hsu
            obtain ⟨hsv, huv⟩ := hsu
            subst hsv
            subst huv
            constructor
            · intro q hqmem
              rcases List.mem_append.mp hqmem with hqm | hqm
              · exact le_of_lt (lt_of_le_of_lt (hmax q hqm) hgt)
              · simp only [List.mem_singleton] at hqm
                subst hqm
                exact le_refl _
            · refine ⟨ptx, ?_⟩
              rw [List.find?_append]
              have hnone : (tagPages t ps).find?
                  (fun p => score p.1 p.2 t == score pu ptx t) = none := by
                rw [List.find?_eq_none]
                intro x hx
                simp only [beq_iff_eq]
                exact Nat.ne_of_lt (lt_of_le_of_lt (hmax x hx) hgt)
              rw [hnone]
              simp [List.find?]
        · rw [show bestUpdate pu ptx t (some (bs, bu)) = some (bs, bu) from by
            simp [bestUpdate, hgt]]
          constructor
          · simp
          · intro s u hsu
            simp only [Option.some.injEq, Prod.mk.injEq] at hsu
            obtain ⟨hsv, huv⟩ := hsu
            subst hsv
            subst huv
            constructor
            · intro q hqmem
              rcases List.mem_append.mp hqmem with hqm | hqm
              · exact hmax q hqm
              · simp only [List.mem_singleton] at hqm
                subst hqm
                exact Nat.le_of_not_lt hgt
            · refine ⟨tx0, ?_⟩
              rw [List.find?_append, hfind]
              rfl
    · have hcond : ¬ (t ∈ tags ∧ hasWordOcc t ptx = true) := by
        intro hc
        exact ho hc.2
      rw [if_neg hcond]
      have htp : tagPages t (ps ++ [(pu, ptx)]) = tagPages t ps := by
        have hof : hasWordOcc t ptx = false := Bool.eq_false_iff.mpr ho
        simp [tagPages, List.filter_append, hof]
      rw [htp]
      exact ⟨hn, hs⟩

/-! ### C3: the best-score table invariant -/

/-- C3: an existing best-score entry is replaced by a page only when the new
score is strictly greater (first conjunct), and every entry `(s, u)` of the
final best-score table carries the maximum score over the pages processed in
the run that contain the tag as a whole word, `u` being the first processed
page attaining that score (ties keep the first found). -/
theorem crawl_best_first_max (oracle : String → Option (List String × String))
    (tags : List String) :
    (∀ url text b t bs bu, List.lookup t b = some (bs, bu) →
      ¬ score url text t > bs →
      List.lookup t (scorePage tags url text b) = some (bs, bu)) ∧
    (∀ t s u, List.lookup t (crawl oracle tags).best = some (s, u) →
      (∀ p ∈ tagPages t (crawl oracle tags).processed, score p.1 p.2 t ≤ s) ∧
      ∃ tx, (tagPages t (crawl oracle tags).processed).find?
        (fun p => score p.1 p.2 t == s) = some (u, tx)) := by
  constructor
  · intro url text b t bs bu hb hngt
    rw [lookup_scorePage]
    by_cases hc : t ∈ tags ∧ hasWordOcc t text = true
    · rw [if_pos hc, hb]
      simp [bestUpdate, hngt]
    · rw [if_neg hc]
      exact hb
  · intro t s u hlook
    rw [crawl_best_eq_runBest] at hlook
    have ht : t ∈ tags := by
      by_contra hnt
      rw [runBest_none_of_not_mem tags _ t hnt] at hlook
      simp at hlook
    exact (runBest_spec tags (crawl oracle tags).processed t ht).2 s u hlook

/-- Witness for C3 on the concrete `o0` run: the recorded entry for `ERN` is
`(330, https://ern.ddex.net/)`, 330 bounds every matching page's score, and
the stored URL is the first page attaining it. -/
theorem crawl_best_first_max_witness :
    (∀ p ∈ tagPages "ERN" (crawl o0 ["ERN"]).processed, score p.1 p.2 "ERN" ≤ 330) ∧
      ∃ tx, (tagPages "ERN" (crawl o0 ["ERN"]).processed).find?
        (fun p => score p.1 p.2 "ERN" == 330) = some ("https://ern.ddex.net/", tx) :=
  (crawl_best_first_max o0 ["ERN"]).2 "ERN" 330 "https://ern.ddex.net/"
    (by rw [crawl_o0_eval]; decide)

/-! ### C10: soundness of best-score entries -/

/-- A whole-word occurrence forces the term-frequency component of the score,
so a scored page is worth at least 10. -/
lemma score_ge_ten_of_occ (url text t : String) (h : hasWordOcc t text = true) :
    10 ≤ score url text t := by
  have hne : countOcc t text ≠ 0 := by simpa [hasWordOcc] using h
  simp only [score]
  split <;> omega

/-- C10: every entry `(s, u)` of the final best-score table comes from a page
of the run: `u` was dequeued, passed the domain allow-list, was marked
visited, was successfully fetched and parsed with some text containing the
tag as a whole word, `s` is that page's score, and `s ≥ 10`. -/
theorem crawl_best_entries_sound (oracle : String → Option (List String × String))
    (tags : List String) (t : String) (s : Nat) (u : String)
    (hlook : List.lookup t (crawl oracle tags).best = some (s, u)) :
    ∃ text, (u, text) ∈ (crawl oracle tags).processed ∧ hasWordOcc t text = true ∧
      s = score u text t ∧ 10 ≤ s ∧
      (∃ d, (u, d) ∈ (crawl oracle tags).fetched) ∧
      (∃ d, (u, d) ∈ (crawl oracle tags).dequeued) ∧
      u ∈ (crawl oracle tags).visited ∧ same_domain u = true := by
  have hlook2 : List.lookup t (runBest tags (crawl oracle tags).processed) = some (s, u) := by
    rw [← crawl_best_eq_runBest]
    exact hlook
  have ht : t ∈ tags := by
    by_contra hnt
    rw [runBest_none_of_not_mem tags _ t hnt] at hlook2
    simp at hlook2
  obtain ⟨-, tx, hfind⟩ :=
    (runBest_spec tags (crawl oracle tags).processed t ht).2 s u hlook2
  have hmem : (u, tx) ∈ tagPages t (crawl oracle tags).processed :=
    List.mem_of_find?_eq_some hfind
  have hseq : s = score u tx t := by
    have hpred := List.find?_some hfind
    simp only [beq_iff_eq] at hpred
    exact hpred.symm
  rw [tagPages, List.mem_filter] at hmem
  obtain ⟨hproc, hocc⟩ := hmem
  have hchain := crawlLoop_inv oracle tags
    (fun st => (∀ q ∈ st.processed, ∃ d, (q.1, d) ∈ st.fetched) ∧
      (∀ r ∈ st.fetched, r.1 ∈ st.visited ∧ same_domain r.1 = true ∧ r ∈ st.dequeued))
    (by
      intro st url depth rest hq hp hc h
      obtain ⟨h1, h2⟩ := h
      refine ⟨fun q hqm => h1 q hqm, ?_⟩
      intro r hr
      obtain ⟨ha, hb, hcq⟩ := h2 r hr
      exact ⟨ha, hb, List.mem_append_left _ hcq⟩)
    (by
      intro st url depth rest hq hp hc ho h
      obtain ⟨h1, h2⟩ := h
      constructor
      · intro q hqm
        obtain ⟨d, hd⟩ := h1 q hqm
        exact ⟨d, List.mem_append_left _ hd⟩
      · intro r hr
        rcases List.mem_append.mp hr with hr | hr
        · obtain ⟨ha, hb, hcq⟩ := h2 r hr
          exact ⟨List.mem_cons_of_mem _ ha, hb, List.mem_append_left _ hcq⟩
        · simp only [List.mem_singleton] at hr
          subst hr
          have hsd : same_domain url = true := by
            by_contra hns
            exact hc (Or.inr hns)
          exact ⟨List.mem_cons_self _ _, hsd, List.mem_append_right _ (by simp)⟩)
    (by
      intro st url depth rest rawLinks text hq hp hc ho h
      obtain ⟨h1, h2⟩ := h
      constructor
      · intro q hqm
        rcases List.mem_append.mp hqm with hqm | hqm
        · obtain ⟨d, hd⟩ := h1 q hqm
          exact ⟨d, List.mem_append_left _ hd⟩
        · simp only [List.mem_singleton] at hqm
          subst hqm
          exact ⟨depth, List.mem_append_right _ (by simp)⟩
      · intro r hr
        rcases List.mem_append.mp hr with hr | hr
        · obtain ⟨ha, hb, hcq⟩ := h2 r hr
          exact ⟨List.mem_cons_of_mem _ ha, hb, List.mem_append_left _ hcq⟩
        · simp only [List.mem_singleton] at hr
          subst hr
          have hsd : same_domain url = true := by
            by_contra hns
            exact hc (Or.inr hns)
          exact ⟨List.mem_cons_self _ _, hsd, List.mem_append_right _ (by simp)⟩)
    initState (by simp [initState])
  obtain ⟨hpf, hfv⟩ := hchain
  obtain ⟨d, hdf⟩ := hpf (u, tx) hproc
  obtain ⟨hvis, hsd, hdq⟩ := hfv (u, d) hdf
  exact ⟨tx, hproc, hocc, hseq, hseq ▸ score_ge_ten_of_occ u tx t hocc,
    ⟨d, hdf⟩, ⟨d, hdq⟩, hvis, hsd⟩

/-- Witness for C10 on the concrete `o0` run. -/
theorem crawl_best_entries_sound_witness :
    ∃ text, ("https://ern.ddex.net/", text) ∈ (crawl o0 ["ERN"]).processed ∧
      hasWordOcc "ERN" text = true ∧ 330 = score "https://ern.ddex.net/" text "ERN" ∧
      10 ≤ 330 ∧
      (∃ d, ("https://ern.ddex.net/", d) ∈ (crawl o0 ["ERN"]).fetched) ∧
      (∃ d, ("https://ern.ddex.net/", d) ∈ (crawl o0 ["ERN"]).dequeued) ∧
      "https://ern.ddex.net/" ∈ (crawl o0 ["ERN"]).visited ∧
      same_domain "https://ern.ddex.net/" = true :=
  crawl_best_entries_sound o0 ["ERN"] "ERN" 330 "https://ern.ddex.net/"
    (by rw [crawl_o0_eval]; decide)

/-! ### C8: termination and partial results -/

/-- The loop only stops on an exhausted frontier or a full page budget. -/
lemma crawlLoop_exit (oracle : String → Option (List String × String)) (tags : List String)
    (st : CrawlState) (h : st.pages ≤ MAX_PAGES) :
    (crawlLoop oracle tags st).queue = [] ∨ (crawlLoop oracle tags st).pages = MAX_PAGES := by
  rw [crawlLoop.eq_def]
  split
  · rename_i hq
    left
    exact hq
  · rename_i url depth rest hq
    split
    · rename_i hp
      split
      · exact crawlLoop_exit oracle tags _ h
      · split
        · exact crawlLoop_exit oracle tags _ h
        · exact crawlLoop_exit oracle tags _ hp
    · rename_i hp
      right
      omega
termination_by (MAX_PAGES - st.pages, st.queue.length)
decreasing_by
  all_goals simp_all [stepSkip, stepFail, stepOk]
  all_goals first
    | exact Prod.Lex.right _ (by omega)
    | exact Prod.Lex.left _ _ (by omega)

/-- C8: the crawl is a total function of the fetch oracle (every fetched page
yields finitely many links by the type of the oracle); the loop ends only
with an empty frontier or with the page counter at `MAX_PAGES`, and the
returned best-score table is exactly the scoring fold accumulated over the
pages the run managed to process. -/
theorem crawl_terminates (oracle : String → Option (List String × String))
    (tags : List String) :
    ((crawl oracle tags).queue = [] ∨ (crawl oracle tags).pages = MAX_PAGES) ∧
      (crawl oracle tags).best = runBest tags (crawl oracle tags).processed := by
  constructor
  · exact crawlLoop_exit oracle tags initState (by simp [initState])
  · exact crawl_best_eq_runBest oracle tags

/-! ### C5: the depth bound -/

/-- C5: every (URL, depth) pair the run ever places in the frontier stays
within `MAX_DEPTH` — every fetched pair, every dequeued pair and every pair
left in the final frontier is bounded (each frontier item is eventually
dequeued or left over, so these logs jointly cover every pair ever present);
in particular no page at depth greater than `MAX_DEPTH` is ever fetched. -/
theorem crawl_depth_bound (oracle : String → Option (List String × String))
    (tags : List String) :
    (∀ p ∈ (crawl oracle tags).fetched, p.2 ≤ MAX_DEPTH) ∧
    (∀ p ∈ (crawl oracle tags).dequeued, p.2 ≤ MAX_DEPTH) ∧
    (∀ p ∈ (crawl oracle tags).queue, p.2 ≤ MAX_DEPTH) := by
  have h := crawlLoop_inv oracle tags
    (fun st => (∀ p ∈ st.queue, p.2 ≤ MAX_DEPTH) ∧ (∀ p ∈ st.dequeued, p.2 ≤ MAX_DEPTH) ∧
      (∀ p ∈ st.fetched, p.2 ≤ MAX_DEPTH))
    (by
      intro st url depth rest hq hp hc h
      obtain ⟨h1, h2, h3⟩ := h
      rw [hq] at h1
      refine ⟨?_, ?_, h3⟩
      · intro p hpm
        exact h1 p (List.mem_cons_of_mem _ hpm)
      · intro p hpm
        rcases List.mem_append.mp hpm with hpm | hpm
        · exact h2 p hpm
        · simp only [List.mem_singleton] at hpm
          subst hpm
          exact h1 (url, depth) (List.mem_cons_self _ _))
    (by
      intro st url depth rest hq hp hc ho h
      obtain ⟨h1, h2, h3⟩ := h
      rw [hq] at h1
      have hd : depth ≤ MAX_DEPTH := h1 (url, depth) (List.mem_cons_self _ _)
      refine ⟨?_, ?_, ?_⟩
      · intro p hpm
        exact h1 p (List.mem_cons_of_mem _ hpm)
      · intro p hpm
        rcases List.mem_append.mp hpm with hpm | hpm
        · exact h2 p hpm
        · simp only [List.mem_singleton] at hpm
          subst hpm
          exact hd
      · intro p hpm
        rcases List.mem_append.mp hpm with hpm | hpm
        · exact h3 p hpm
        · simp only [List.mem_singleton] at hpm
          subst hpm
          exact hd)
    (by
      intro st url depth rest rawLinks text hq hp hc ho h
      obtain ⟨h1, h2, h3⟩ := h
      rw [hq] at h1
      have hd : depth ≤ MAX_DEPTH := h1 (url, depth) (List.mem_cons_self _ _)
      refine ⟨?_, ?_, ?_⟩
      · intro p hpm
        rcases List.mem_append.mp hpm with hpm | hpm
        · exact h1 p (List.mem_cons_of_mem _ hpm)
        · simp only [newLinks] at hpm
          by_cases hlt : depth < MAX_DEPTH
          · rw [if_pos hlt] at hpm
            obtain ⟨u2, hu2, rfl⟩ := List.mem_map.mp hpm
            exact hlt
          · rw [if_neg hlt] at hpm
            simp at hpm
      · intro p hpm
        rcases List.mem_append.mp hpm with hpm | hpm
        · exact h2 p hpm
        · simp only [List.mem_singleton] at hpm
          subst hpm
          exact hd
      · intro p hpm
        rcases List.mem_append.mp hpm with hpm | hpm
        · exact h3 p hpm
        · simp only [List.mem_singleton] at hpm
          subst hpm
          exact hd)
    initState
    (by
      refine ⟨?_, by simp [initState], by simp [initState]⟩
      intro p hpm
      simp only [initState] at hpm
      obtain ⟨u2, hu2, rfl⟩ := List.mem_map.mp hpm
      exact Nat.zero_le _)
  exact ⟨h.2.2, h.2.1, h.1⟩

/-- Witness for C5: in the concrete `o0` run the first seed is fetched at
depth 0, within the bound. -/
theorem crawl_depth_bound_witness :
    (("https://ern.ddex.net/", 0) : String × Nat).2 ≤ MAX_DEPTH :=
  (crawl_depth_bound o0 ["ERN"]).1 ("https://ern.ddex.net/", 0)
    (by rw [crawl_o0_eval]; decide)

/-! ### C6: breadth-first dequeue order -/

/-- Comparison of frontier items by depth. -/
def sndLe (a b : String × Nat) : Prop := a.2 ≤ b.2

lemma pairwise_sndLe_map_const (l : List String) (c : Nat) :
    List.Pairwise sndLe (l.map (fun u => (u, c))) := by
  induction l with
  | nil => simp
  | cons a l ih =>
    simp only [List.map_cons, List.pairwise_cons]
    refine ⟨?_, ih⟩
    intro b hb
    obtain ⟨u2, hu2, rfl⟩ := List.mem_map.mp hb
    show c ≤ c
    exact le_refl c

lemma newLinks_mem (st : CrawlState) (url : String) (depth : Nat) (rawLinks : List String)
    (b : String × Nat) (hb : b ∈ newLinks st url depth rawLinks) : b.2 = depth + 1 := by
  simp only [newLinks] at hb
  by_cases hlt : depth < MAX_DEPTH
  · rw [if_pos hlt] at hb
    obtain ⟨u2, hu2, rfl⟩ := List.mem_map.mp hb
    rfl
  · rw [if_neg hlt] at hb
    simp at hb

lemma newLinks_pairwise (st : CrawlState) (url : String) (depth : Nat)
    (rawLinks : List String) : List.Pairwise sndLe (newLinks st url depth rawLinks) := by
  simp only [newLinks]
  split
  · exact pairwise_sndLe_map_const _ _
  · exact List.Pairwise.nil

/-- The breadth-first frontier invariant: the frontier is sorted by depth,
all frontier depths lie within 1 of each other, the dequeue log is sorted by
depth, and every dequeued depth bounds every frontier depth. -/
def bfsInv (st : CrawlState) : Prop :=
  List.Pairwise sndLe st.queue ∧
  (∀ a ∈ st.queue, ∀ b ∈ st.queue, a.2 ≤ b.2 + 1) ∧
  List.Pairwise sndLe st.dequeued ∧
  (∀ a ∈ st.dequeued, ∀ b ∈ st.queue, sndLe a b)

lemma bfsInv_stepSkip (st : CrawlState) (url : String) (depth : Nat)
    (rest : List (String × Nat)) (hq : st.queue = (url, depth) :: rest)
    (h : bfsInv st) : bfsInv (stepSkip st url depth rest) := by
  obtain ⟨hq1, hq2, hd1, hcross⟩ := h
  rw [hq] at hq1 hq2 hcross
  rw [List.pairwise_cons] at hq1
  obtain ⟨hhead, htail⟩ := hq1
  refine ⟨htail, ?_, ?_, ?_⟩
  · intro a ha b hb
    exact hq2 a (List.mem_cons_of_mem _ ha) b (List.mem_cons_of_mem _ hb)
  · rw [show (stepSkip st url depth rest).dequeued = st.dequeued ++ [(url, depth)] from rfl,
      List.pairwise_append]
    refine ⟨hd1, by simp, ?_⟩
    intro a ha b hb
    simp only [List.mem_singleton] at hb
    subst hb
    exact hcross a ha _ (List.mem_cons_self _ _)
  · intro a ha b hb
    rcases List.mem_append.mp ha with ha | ha
    · exact hcross a ha b (List.mem_cons_of_mem _ hb)
    · simp only [List.mem_singleton] at ha
      subst ha
      exact hhead b hb

lemma bfsInv_stepFail (st : CrawlState) (url : String) (depth : Nat)
    (rest : List (String × Nat)) (hq : st.queue = (url, depth) :: rest)
    (h : bfsInv st) : bfsInv (stepFail st url depth rest) :=
  bfsInv_stepSkip st url depth rest hq h

lemma bfsInv_stepOk (tags : List String) (st : CrawlState) (url : String) (depth : Nat)
    (rest : List (String × Nat)) (rawLinks : List String) (text : String)
    (hq : st.queue = (url, depth) :: rest) (h : bfsInv st) :
    bfsInv (stepOk tags st url depth rest rawLinks text) := by
  obtain ⟨hq1, hq2, hd1, hcross⟩ := h
  rw [hq] at hq1 hq2 hcross
  rw [List.pairwise_cons] at hq1
  obtain ⟨hhead, htail⟩ := hq1
  have hbound : ∀ a ∈ rest, a.2 ≤ depth + 1 := by
    intro a ha
    have := hq2 a (List.mem_cons_of_mem _ ha) (url, depth) (List.mem_cons_self _ _)
    omega
  refine ⟨?_, ?_, ?_, ?_⟩
  · rw [show (stepOk tags st url depth rest rawLinks text).queue
        = rest ++ newLinks st url depth rawLinks from rfl, List.pairwise_append]
    refine ⟨htail, newLinks_pairwise _ _ _ _, ?_⟩
    intro a ha b hb
    have hb2 := newLinks_mem _ _ _ _ b hb
    show a.2 ≤ b.2
    rw [hb2]
    exact hbound a ha
  · intro a ha b hb
    rcases List.mem_append.mp ha with ha | ha <;> rcases List.mem_append.mp hb with hb | hb
    · exact hq2 a (List.mem_cons_of_mem _ ha) b (List.mem_cons_of_mem _ hb)
    · have hb2 := newLinks_mem _ _ _ _ b hb
      have := hbound a ha
      omega
    · have ha2 := newLinks_mem _ _ _ _ a ha
      have hdb : depth ≤ b.2 := hhead b hb
      show a.2 ≤ b.2 + 1
      omega
    · have ha2 := newLinks_mem _ _ _ _ a ha
      have hb2 := newLinks_mem _ _ _ _ b hb
      omega
  · rw [show (stepOk tags st url depth rest rawLinks text).dequeued
        = st.dequeued ++ [(url, depth)] from rfl, List.pairwise_append]
    refine ⟨hd1, by simp, ?_⟩
    intro a ha b hb
    simp only [List.mem_singleton] at hb
    subst hb
    exact hcross a ha _ (List.mem_cons_self _ _)
  · intro a ha b hb
    rcases List.mem_append.mp ha with ha | ha
    · rcases List.mem_append.mp hb with hb | hb
      · exact hcross a ha b (List.mem_cons_of_mem _ hb)
      · have hb2 := newLinks_mem _ _ _ _ b hb
        have had : a.2 ≤ depth := hcross a ha (url, depth) (List.mem_cons_self _ _)
        show a.2 ≤ b.2
        omega
    · simp only [List.mem_singleton] at ha
      subst ha
      rcases List.mem_append.mp hb with hb | hb
      · exact hhead b hb
      · have hb2 := newLinks_mem _ _ _ _ b hb
        show depth ≤ b.2
        omega

/-- C6: the dequeue log of a crawl is sorted by depth: items are dequeued and
processed in non-decreasing depth order, so a page at a smaller depth is
always processed strictly before any page at a greater depth (FIFO
breadth-first order). -/
theorem crawl_bfs_order (oracle : String → Option (List String × String))
    (tags : List String) : List.Pairwise sndLe (crawl oracle tags).dequeued := by
  have h := crawlLoop_inv oracle tags bfsInv
    (fun st url depth rest hq hp hc h => bfsInv_stepSkip st url depth rest hq h)
    (fun st url depth rest hq hp hc ho h => bfsInv_stepFail st url depth rest hq h)
    (fun st url depth rest rawLinks text hq hp hc ho h =>
      bfsInv_stepOk tags st url depth rest rawLinks text hq h)
    initState ?init
  · exact h.2.2.1
  case init =>
    refine ⟨?_, ?_, by simp [initState], by simp [initState]⟩
    · exact pairwise_sndLe_map_const _ _
    · intro a ha b hb
      simp only [initState] at ha
      obtain ⟨u2, hu2, rfl⟩ := List.mem_map.mp ha
      exact Nat.zero_le _

end DDEX
